import Mathlib

/-!
Verification of the scripture-reference parsing core of the lectionary merge
pipeline (merge_lectionary.py).  Strings are embedded as lists of characters
(`Chars`); every Python string operation used by the source (strip, split,
startswith, slicing) is modelled explicitly, and the two regular expressions
of the source (BOOK_PATTERN, BOOK_EXTRACT_PATTERN) are modelled as executable
functions.  For both patterns the regex backtracking is deterministic (each
optional or starred piece is followed by a piece that cannot match the same
characters), so greedy left-to-right matching with an ordered alternation is
an exact model.  Characters are treated as ASCII, which covers the source
data (scraped English citation strings).
-/

namespace Lectionary

abbrev Chars := List Char

/-- Python whitespace for str.strip and the regex class backslash-s
(ASCII range). -/
def isPySpace (c : Char) : Bool :=
  c == ' ' || c == '\t' || c == '\n' || c == '\r' || c == '\x0b' || c == '\x0c'

/-- Python str.strip(): remove leading and trailing whitespace. -/
def stripChars (s : Chars) : Chars :=
  ((s.dropWhile isPySpace).reverse.dropWhile isPySpace).reverse

/-- String-level wrapper of Python str.strip(). -/
def pyStrip (s : String) : String := String.mk (stripChars s.toList)

/-- Python str.split(sep) for a single-character separator: keeps empty
pieces, so the empty string splits to one empty piece. -/
def pySplit (sep : Char) : Chars → List Chars
  | [] => [[]]
  | c :: rest =>
    match pySplit sep rest with
    | [] => [[]]
    | h :: t => if c == sep then [] :: h :: t else (c :: h) :: t

/-- A nonempty string whose first and last characters are not whitespace,
i.e. a fixed point of str.strip(). -/
def trimmedNE (r : Chars) : Bool :=
  match r.head?, r.getLast? with
  | some a, some b => !isPySpace a && !isPySpace b
  | _, _ => false

/-! ### Book name patterns -/

/-- The ordered alternation of BOOK_PATTERN, with the regex optionals
Psalms?, Proverbs?, Exod?. and Pss?. expanded greedy-first. -/
def bookAlternatives : List String :=
  ["Genesis", "Exodus", "Leviticus", "Numbers", "Deuteronomy",
   "Joshua", "Judges", "Ruth",
   "1 Samuel", "2 Samuel", "1 Kings", "2 Kings",
   "1 Chronicles", "2 Chronicles",
   "Ezra", "Nehemiah", "Esther", "Job",
   "Psalms", "Psalm", "Proverbs", "Proverb", "Ecclesiastes",
   "Song of Solomon", "Song of Songs", "Canticles",
   "Isaiah", "Jeremiah", "Lamentations", "Ezekiel", "Daniel",
   "Hosea", "Joel", "Amos", "Obadiah", "Jonah", "Micah",
   "Nahum", "Habakkuk", "Zephaniah", "Haggai", "Zechariah", "Malachi",
   "Matthew", "Mark", "Luke", "John", "Acts",
   "Romans", "1 Corinthians", "2 Corinthians",
   "Galatians", "Ephesians", "Philippians", "Colossians",
   "1 Thessalonians", "2 Thessalonians",
   "1 Timothy", "2 Timothy", "Titus", "Philemon",
   "Hebrews", "James", "1 Peter", "2 Peter",
   "1 John", "2 John", "3 John", "Jude", "Revelation",
   "Gen.", "Exod.", "Exo.", "Lev.", "Num.", "Deut.",
   "Josh.", "Judg.",
   "1 Sam.", "2 Sam.", "1 Kgs.", "2 Kgs.",
   "1 Chr.", "2 Chr.",
   "Neh.", "Esth.",
   "Pss.", "Ps.", "Prov.", "Eccl.", "Eccles.",
   "Song.", "Cant.",
   "Isa.", "Jer.", "Lam.", "Ezek.", "Dan.",
   "Hos.", "Obad.", "Jon.", "Mic.",
   "Nah.", "Hab.", "Zeph.", "Hag.", "Zech.", "Mal.",
   "Matt.", "Mt.", "Mk.", "Lk.", "Jn.",
   "Rom.", "1 Cor.", "2 Cor.",
   "Gal.", "Eph.", "Phil.", "Col.",
   "1 Thess.", "2 Thess.",
   "1 Tim.", "2 Tim.",
   "Heb.", "Jas.", "1 Pet.", "2 Pet.",
   "1 Jn.", "2 Jn.", "3 Jn.", "Rev.",
   "Wisd. of Sol.", "Wisdom", "Sirach", "Ecclesiasticus",
   "Baruch", "1 Maccabees", "2 Maccabees",
   "Tobit", "Judith"]

/-- The tail of BOOK_PATTERN after the alternation: an optional period,
whitespace, then a digit or opening paren. -/
def matchBookTail (rest : Chars) : Bool :=
  let r := match rest with
    | '.' :: r => r
    | r => r
  match r.dropWhile isPySpace with
  | c :: _ => c.isDigit || c == '('
  | [] => false

/-- Anchored match of BOOK_PATTERN (case-insensitive). -/
def BOOK_PATTERN_match (text : Chars) : Bool :=
  let lower := text.map Char.toLower
  bookAlternatives.any fun alt =>
    (alt.toList.map Char.toLower).isPrefixOf lower
      && matchBookTail (text.drop alt.toList.length)

/-- starts_with_book_name from the source: strip, then BOOK_PATTERN match. -/
def starts_with_book_nameC (text : Chars) : Bool :=
  BOOK_PATTERN_match (stripChars text)

/-- The dot-star-dollar tail of BOOK_EXTRACT_PATTERN: dot does not match a
newline and dollar also matches just before a final newline, so the rest may
contain a newline only as its last character. -/
def dollarTail (rest : Chars) : Bool :=
  !(rest.contains '\n')
    || ((rest.getLast? == some '\n') && !(rest.dropLast.contains '\n'))

/-- The part of BOOK_EXTRACT_PATTERN after the book alternation: an optional
period (closing group 1), whitespace, then a digit starting group 2.  Returns
the completed group 1 on success. -/
def afterBook (g : Chars) (rest : Chars) : Option Chars :=
  let p := match rest with
    | '.' :: r => (g ++ ['.'], r)
    | r => (g, r)
  match (p.2).dropWhile isPySpace with
  | c :: tail => if c.isDigit && dollarTail tail then some p.1 else none
  | [] => none

/-- The explicit multi-word alternatives of BOOK_EXTRACT_PATTERN,
in pattern order, checked before the generic word alternative. -/
def extractMultiWord : List String :=
  ["Song of Solomon", "Song of Songs", "Wisd. of Sol.", "Wisdom of Solomon"]

/-- The generic alternative of BOOK_EXTRACT_PATTERN: one or more letters,
then optionally a period with zero or more letters.  Greedy matching is
exact here: nothing after the letters can consume a letter, and nothing
after the optional period group can productively re-consume it.
Returns the consumed characters and the remainder. -/
def genericAlt (s : Chars) : Option (Chars × Chars) :=
  let letters := s.takeWhile (fun c => c.isAlpha)
  if letters.isEmpty then none
  else
    match s.drop letters.length with
    | '.' :: r =>
      let l2 := r.takeWhile (fun c => c.isAlpha)
      some (letters ++ '.' :: l2, r.drop l2.length)
    | r => some (letters, r)

/-- The alternation of BOOK_EXTRACT_PATTERN at a given position, with the
group-1 characters consumed so far; regex backtracking over the ordered
alternatives is modelled by taking the first alternative whose continuation
succeeds. -/
def tryAlternation (pre : Chars) (s : Chars) : Option Chars :=
  match (extractMultiWord.filterMap fun alt =>
      if alt.toList.isPrefixOf s then
        afterBook (pre ++ alt.toList) (s.drop alt.toList.length)
      else none).head? with
  | some g => some g
  | none =>
    match genericAlt s with
    | some pr => afterBook (pre ++ pr.1) pr.2
    | none => none

/-- Anchored match of BOOK_EXTRACT_PATTERN (case-sensitive), returning
group 1: an optional digit with following whitespace, then the book
alternation, then an optional period. -/
def BOOK_EXTRACT_match (s : Chars) : Option Chars :=
  match s with
  | [] => none
  | d :: rest =>
    if d.isDigit then
      let ws := rest.takeWhile isPySpace
      if ws.isEmpty then tryAlternation [] s
      else
        match tryAlternation (d :: ws) (rest.drop ws.length) with
        | some g => some g
        | none => tryAlternation [] s
    else tryAlternation [] s

/-- extract_book_name from the source: strip, match BOOK_EXTRACT_PATTERN,
return group 1 stripped, or none. -/
def extract_book_nameC (reference : Chars) : Option Chars :=
  (BOOK_EXTRACT_match (stripChars reference)).map stripChars

/-- The character class of the verse-fragment regex: colon, hyphen, digit,
whitespace, parens, letters (case-insensitive class). -/
def fragChar (c : Char) : Bool :=
  c == ':' || c == '-' || c.isDigit || isPySpace c || c == '(' || c == ')'
    || c.isAlpha

/-- Anchored full match of the verse-fragment regex (digits, an optional
letter, then the fragment class to the end).  Since digits and letters are
also in the class, this is: nonempty, first character a digit, every
character in the class. -/
def looksLikeVerseFragment (s : Chars) : Bool :=
  match s with
  | [] => false
  | c :: _ => c.isDigit && s.all fragChar

/-! ### Source typo corrections -/

/-- SOURCE_CORRECTIONS of the source, in insertion order: the string
"Kings " maps to "1 Kings " and the string "Lamentation " maps to
"Lamentations ". -/
def SOURCE_CORRECTIONS : List (Chars × Chars) :=
  [(['K', 'i', 'n', 'g', 's', ' '],
    ['1', ' ', 'K', 'i', 'n', 'g', 's', ' ']),
   (['L', 'a', 'm', 'e', 'n', 't', 'a', 't', 'i', 'o', 'n', ' '],
    ['L', 'a', 'm', 'e', 'n', 't', 'a', 't', 'i', 'o', 'n', 's', ' '])]

/-- One loop iteration of correct_source_typos: if raw starts with the
wrong prefix, replace it by the right one. -/
def applyCorrection (raw : Chars) (rule : Chars × Chars) : Chars :=
  if rule.1.isPrefixOf raw then rule.2 ++ raw.drop rule.1.length else raw

/-- correct_source_typos from the source: each rule applied once, in order. -/
def correct_source_typosC (raw : Chars) : Chars :=
  SOURCE_CORRECTIONS.foldl applyCorrection raw

/-! ### The reference splitter -/

/-- The category of a flagged decision, named as in the specification;
the three constructors correspond to the three warning call sites inside
split_references (log tags COMMA_SPLIT_AMBIGUOUS, NO_BOOK_CONTEXT and
EMPTY_RESULT). -/
inductive EdgeCategory where
  | AMBIGUOUS_COMMA_SPLIT
  | NO_BOOK_CONTEXT
  | EMPTY_RESULT
deriving DecidableEq

/-- One structured edge-case record: category, the (corrected) raw citation,
the offending fragment and the reading type. -/
structure EdgeCase where
  category : EdgeCategory
  raw : Chars
  fragment : Chars
  reading_type : Chars
deriving DecidableEq

/-- The mutable state of the split_references loops: the emitted references,
the current book and the edge cases recorded so far. -/
structure SplitState where
  results : List Chars
  current_book : Option Chars
  edges : List EdgeCase
deriving DecidableEq

/-- Python results[-1] += suffix: append to the last element in place. -/
def appendToLast (suffix : Chars) : List Chars → List Chars
  | [] => []
  | [r] => [r ++ suffix]
  | r :: rest => r :: appendToLast suffix rest

/-- The body of the inner comma loop of split_references for one stripped
comma part.  The current book is consulted with Python truthiness, so an
empty current book behaves like an unset one. -/
def processPart (raw rt : Chars) (st : SplitState) (part : Chars) : SplitState :=
  if part.isEmpty then st
  else if starts_with_book_nameC part then
    { st with results := st.results ++ [part],
              current_book := extract_book_nameC part }
  else
    match st.current_book with
    | some book =>
      if book.isEmpty then
        { st with results := st.results ++ [part],
                  edges := st.edges ++ [⟨.NO_BOOK_CONTEXT, raw, part, rt⟩] }
      else if looksLikeVerseFragment part then
        if st.results.isEmpty then
          { st with results := st.results ++ [book ++ ' ' :: part] }
        else if part.contains ':' then
          { st with results := st.results ++ [book ++ ' ' :: part] }
        else
          { st with results := appendToLast (',' :: ' ' :: part) st.results }
      else
        { st with results := st.results ++ [book ++ ' ' :: part],
                  edges := st.edges ++ [⟨.AMBIGUOUS_COMMA_SPLIT, raw, part, rt⟩] }
    | none =>
      { st with results := st.results ++ [part],
                edges := st.edges ++ [⟨.NO_BOOK_CONTEXT, raw, part, rt⟩] }

/-- One semicolon segment: split on commas, strip each piece, run the
comma loop. -/
def processSemiPart (raw rt : Chars) (st : SplitState) (semi : Chars) : SplitState :=
  ((pySplit ',' semi).map stripChars).foldl (processPart raw rt) st

/-- The main loops of split_references over the corrected raw citation:
split on semicolons, strip, drop empty segments, process each. -/
def splitLoop (raw rt : Chars) : SplitState :=
  (((pySplit ';' raw).map stripChars).filter fun p => !p.isEmpty).foldl
    (processSemiPart raw rt) ⟨[], none, []⟩

/-- split_references from the source, returning the reference list together
with the edge-case records it emits. -/
def split_referencesC (raw0 rt : Chars) : List Chars × List EdgeCase :=
  if (stripChars raw0).isEmpty then ([], [])
  else
    let raw := correct_source_typosC (stripChars raw0)
    let st := splitLoop raw rt
    if st.results.isEmpty then
      if raw.isEmpty then ([], st.edges)
      else ([raw], st.edges ++ [⟨.EMPTY_RESULT, raw, raw, rt⟩])
    else (st.results, st.edges)

/-! ### The psalm splitter -/

/-- The anchored substitution removing a leading case-insensitive Psalm or
Psalms token with following whitespace (greedy, longer form first). -/
def stripLeadingPsalm (raw : Chars) : Chars :=
  let lower := raw.map Char.toLower
  if ['p', 's', 'a', 'l', 'm', 's'].isPrefixOf lower then
    (raw.drop 6).dropWhile isPySpace
  else if ['p', 's', 'a', 'l', 'm'].isPrefixOf lower then
    (raw.drop 5).dropWhile isPySpace
  else raw

/-- split_psalm_references from the source. -/
def split_psalm_referencesC (raw0 : Chars) : List Chars :=
  if (stripChars raw0).isEmpty then []
  else
    ((pySplit ';' (stripLeadingPsalm (stripChars raw0))).map stripChars).filter
      fun p => !p.isEmpty

/-! ### String-level wrappers -/

/-- starts_with_book_name on Lean strings. -/
def starts_with_book_name (text : String) : Bool :=
  starts_with_book_nameC text.toList

/-- extract_book_name on Lean strings. -/
def extract_book_name (reference : String) : Option String :=
  (extract_book_nameC reference.toList).map String.mk

/-- correct_source_typos on Lean strings. -/
def correct_source_typos (raw : String) : String :=
  String.mk (correct_source_typosC raw.toList)

/-- split_references on Lean strings (the returned reference list). -/
def split_references (raw reading_type : String) : List String :=
  ((split_referencesC raw.toList reading_type.toList).1).map String.mk

/-- The edge-case records emitted by one call of split_references. -/
def split_references_edges (raw reading_type : String) : List EdgeCase :=
  (split_referencesC raw.toList reading_type.toList).2

/-- split_psalm_references on Lean strings. -/
def split_psalm_references (raw : String) : List String :=
  (split_psalm_referencesC raw.toList).map String.mk

end Lectionary

namespace Lectionary

/-! ### Lemmas about stripping -/

theorem getLast?_dropWhile (p : Char → Bool) (l : Chars)
    (h : l.dropWhile p ≠ []) : (l.dropWhile p).getLast? = l.getLast? := by
  induction l with
  | nil => simp at h
  | cons x xs ih =>
    rw [List.dropWhile_cons]
    by_cases hx : p x = true
    · rw [if_pos hx]
      rw [List.dropWhile_cons, if_pos hx] at h
      rw [ih h]
      rcases xs with _ | ⟨y, ys⟩
      · simp at h
      · rw [List.getLast?_cons_cons]
    · rw [if_neg hx]

theorem trimmedNE_iff (r : Chars) :
    trimmedNE r = true ↔
      (∃ a, r.head? = some a ∧ isPySpace a = false)
        ∧ ∃ b, r.getLast? = some b ∧ isPySpace b = false := by
  unfold trimmedNE
  rcases hh : r.head? with _ | a <;> rcases hl : r.getLast? with _ | b <;> simp

theorem trimmedNE_ne_nil {r : Chars} (h : trimmedNE r = true) : r ≠ [] := by
  intro e
  subst e
  simp [trimmedNE] at h

theorem trimmedNE_stripChars (s : Chars) (h : stripChars s ≠ []) :
    trimmedNE (stripChars s) = true := by
  have hd2 : (s.dropWhile isPySpace).reverse.dropWhile isPySpace ≠ [] := by
    intro e
    apply h
    unfold stripChars
    rw [e]
    rfl
  have hd1 : s.dropWhile isPySpace ≠ [] := by
    intro e
    apply hd2
    rw [e]
    rfl
  rw [trimmedNE_iff]
  constructor
  · have hhead : (stripChars s).head? = (s.dropWhile isPySpace).head? := by
      unfold stripChars
      rw [List.head?_reverse, getLast?_dropWhile _ _ hd2, List.getLast?_reverse]
    have := List.head?_dropWhile_not isPySpace s
    rcases hh : (s.dropWhile isPySpace).head? with _ | a
    · exact absurd (List.head?_eq_none_iff.mp hh) hd1
    · rw [hh] at this
      exact ⟨a, by rw [hhead, hh], this⟩
  · have hlast : (stripChars s).getLast? =
        ((s.dropWhile isPySpace).reverse.dropWhile isPySpace).head? := by
      unfold stripChars
      rw [List.getLast?_reverse]
    have := List.head?_dropWhile_not isPySpace (s.dropWhile isPySpace).reverse
    rcases hh : ((s.dropWhile isPySpace).reverse.dropWhile isPySpace).head? with _ | b
    · exact absurd (List.head?_eq_none_iff.mp hh) hd2
    · rw [hh] at this
      exact ⟨b, by rw [hlast, hh], this⟩

theorem dropWhile_eq_self_of_head? {p : Char → Bool} {l : Chars}
    (h : ∀ c, l.head? = some c → p c = false) : l.dropWhile p = l := by
  cases l with
  | nil => rfl
  | cons a t => simp [List.dropWhile_cons, h a rfl]

theorem stripChars_of_trimmedNE {r : Chars} (h : trimmedNE r = true) :
    stripChars r = r := by
  rw [trimmedNE_iff] at h
  obtain ⟨⟨a, ha, ha2⟩, ⟨b, hb, hb2⟩⟩ := h
  have h1 : r.dropWhile isPySpace = r :=
    dropWhile_eq_self_of_head? (fun c hc => by rw [ha] at hc; cases hc; exact ha2)
  have h2 : r.reverse.dropWhile isPySpace = r.reverse :=
    dropWhile_eq_self_of_head? (fun c hc => by
      rw [List.head?_reverse, hb] at hc; cases hc; exact hb2)
  unfold stripChars
  rw [h1, h2, List.reverse_reverse]

theorem stripChars_idem (s : Chars) : stripChars (stripChars s) = stripChars s := by
  by_cases h : stripChars s = []
  · rw [h]
    rfl
  · exact stripChars_of_trimmedNE (trimmedNE_stripChars s h)

theorem trimmedNE_append (a m b : Chars) (ha : trimmedNE a = true)
    (hb : trimmedNE b = true) : trimmedNE (a ++ m ++ b) = true := by
  rw [trimmedNE_iff] at ha hb ⊢
  obtain ⟨⟨x, hx, hx2⟩, _⟩ := ha
  obtain ⟨_, ⟨y, hy, hy2⟩⟩ := hb
  have hane : a ≠ [] := by intro e; rw [e] at hx; simp at hx
  have hbne : b ≠ [] := by
    intro e
    rw [e] at hy
    simp at hy
  constructor
  · refine ⟨x, ?_, hx2⟩
    rw [List.append_assoc, List.head?_append_of_ne_nil _ hane, hx]
  · refine ⟨y, ?_, hy2⟩
    rw [List.getLast?_append_of_ne_nil _ hbne, hy]

theorem mem_of_mem_stripChars {c : Char} {s : Chars} (h : c ∈ stripChars s) :
    c ∈ s := by
  unfold stripChars at h
  rw [List.mem_reverse] at h
  have h2 := (List.dropWhile_sublist isPySpace).mem h
  rw [List.mem_reverse] at h2
  exact (List.dropWhile_sublist isPySpace).mem h2

/-! ### Lemmas about pySplit -/

theorem pySplit_eq_single {sep : Char} {s : Chars} (h : sep ∉ s) :
    pySplit sep s = [s] := by
  induction s with
  | nil => rfl
  | cons c rest ih =>
    have hcr : sep ∉ rest := fun hm => h (List.mem_cons_of_mem _ hm)
    have hc : (c == sep) = false := by
      apply beq_eq_false_iff_ne.mpr
      intro e
      exact h (e ▸ List.mem_cons_self c rest)
    rw [pySplit, ih hcr, hc]
    simp

theorem sep_not_mem_pySplit {sep : Char} {s x : Chars}
    (hx : x ∈ pySplit sep s) : sep ∉ x := by
  induction s generalizing x with
  | nil =>
    simp only [pySplit, List.mem_singleton] at hx
    subst hx
    simp
  | cons c rest ih =>
    rw [pySplit] at hx
    rcases hps : pySplit sep rest with _ | ⟨h1, t⟩
    · rw [hps] at hx
      simp at hx
      subst hx
      simp
    · rw [hps] at hx
      by_cases hc : (c == sep) = true
      · rw [hc] at hx
        simp only [if_true] at hx
        rcases List.mem_cons.mp hx with he | hm
        · subst he
          simp
        · exact ih (hps ▸ hm)
      · rw [Bool.not_eq_true] at hc
        rw [hc] at hx
        simp only [Bool.false_eq_true, if_false] at hx
        rcases List.mem_cons.mp hx with he | hm
        · subst he
          intro hmem
          rcases List.mem_cons.mp hmem with he2 | hm2
          · exact absurd (beq_iff_eq.mpr he2.symm) (by rw [hc]; simp)
          · exact ih (hps ▸ List.mem_cons_self h1 t) hm2
        · exact ih (hps ▸ List.mem_cons_of_mem _ hm)

/-! ### Lemmas about appendToLast -/

theorem appendToLast_cons_cons (s x y : Chars) (t : List Chars) :
    appendToLast s (x :: y :: t) = x :: appendToLast s (y :: t) := rfl

theorem appendToLast_append_singleton (s : Chars) :
    ∀ (l : List Chars) (a : Chars), appendToLast s (l ++ [a]) = l ++ [a ++ s] := by
  intro l
  induction l with
  | nil => intro a; rfl
  | cons x xs ih =>
    intro a
    rcases xs with _ | ⟨y, ys⟩
    · rfl
    · have h := ih a
      simp only [List.cons_append] at h ⊢
      rw [appendToLast_cons_cons, h]

theorem trimmedNE_appendToLast (m b : Chars) (hb : trimmedNE b = true) :
    ∀ l, (∀ r ∈ l, trimmedNE r = true) →
      ∀ x ∈ appendToLast (m ++ b) l, trimmedNE x = true := by
  intro l
  induction l with
  | nil => intro _ x hx; simp [appendToLast] at hx
  | cons r rest ih =>
    intro hl x hx
    rcases rest with _ | ⟨y, ys⟩
    · simp only [appendToLast, List.mem_singleton] at hx
      subst hx
      rw [← List.append_assoc]
      exact trimmedNE_append r m b (hl r (List.mem_cons_self r [])) hb
    · rw [appendToLast_cons_cons] at hx
      rcases List.mem_cons.mp hx with he | hm
      · subst he
        exact hl x (List.mem_cons_self x _)
      · exact ih (fun q hq => hl q (List.mem_cons_of_mem _ hq)) x hm

end Lectionary

namespace Lectionary

/-! ### The loop invariant of split_references -/

/-- Invariant of the split state: every emitted reference is nonempty with
no whitespace at either end, and the current book is a fixed point of
str.strip(). -/
def StInv (st : SplitState) : Prop :=
  (∀ r ∈ st.results, trimmedNE r = true)
    ∧ ∀ b, st.current_book = some b → stripChars b = b

theorem trimmedNE_of_fixpoint {p : Chars} (hfix : stripChars p = p)
    (hne : p ≠ []) : trimmedNE p = true := by
  rw [← hfix]
  exact trimmedNE_stripChars p (by rw [hfix]; exact hne)

theorem extract_book_nameC_fixpoint {part b : Chars}
    (h : extract_book_nameC part = some b) : stripChars b = b := by
  unfold extract_book_nameC at h
  rcases Option.map_eq_some'.mp h with ⟨g, _, hb⟩
  rw [← hb]
  exact stripChars_idem g

theorem processPart_inv (raw rt part : Chars) (st : SplitState)
    (hpart : stripChars part = part) (h : StInv st) :
    StInv (processPart raw rt st part) := by
  obtain ⟨hres, hbook⟩ := h
  unfold processPart
  by_cases hemp : part.isEmpty
  · rw [if_pos hemp]
    exact ⟨hres, hbook⟩
  · rw [if_neg hemp]
    have hpne : part ≠ [] := by
      intro e
      rw [e] at hemp
      exact hemp rfl
    have hptr : trimmedNE part = true := trimmedNE_of_fixpoint hpart hpne
    have hres1 : ∀ r ∈ st.results ++ [part], trimmedNE r = true := by
      intro r hr
      rcases List.mem_append.mp hr with hm | hm
      · exact hres r hm
      · rw [List.mem_singleton.mp hm]
        exact hptr
    by_cases hbs : starts_with_book_nameC part
    · rw [if_pos hbs]
      exact ⟨hres1, fun b hb => extract_book_nameC_fixpoint hb⟩
    · rw [if_neg hbs]
      rcases hcb : st.current_book with _ | book
      · exact ⟨hres1, fun b hb => by simp at hb⟩
      · simp only []
        have hbfix : stripChars book = book := hbook book hcb
        by_cases hbe : book.isEmpty
        · rw [if_pos hbe]
          exact ⟨hres1, fun b hb => by cases hb; exact hbfix⟩
        · rw [if_neg hbe]
          have hbne : book ≠ [] := by
            intro e
            rw [e] at hbe
            exact hbe rfl
          have hbtr : trimmedNE book = true := trimmedNE_of_fixpoint hbfix hbne
          have hres2 : ∀ r ∈ st.results ++ [book ++ ' ' :: part],
              trimmedNE r = true := by
            intro r hr
            rcases List.mem_append.mp hr with hm | hm
            · exact hres r hm
            · rw [List.mem_singleton.mp hm]
              have : book ++ ' ' :: part = book ++ [' '] ++ part := by simp
              rw [this]
              exact trimmedNE_append book [' '] part hbtr hptr
          by_cases hfr : looksLikeVerseFragment part
          · rw [if_pos hfr]
            by_cases hre : st.results.isEmpty
            · rw [if_pos hre]
              exact ⟨hres2, fun b hb => by cases hb; exact hbfix⟩
            · rw [if_neg hre]
              by_cases hcol : part.contains ':'
              · rw [if_pos hcol]
                exact ⟨hres2, fun b hb => by cases hb; exact hbfix⟩
              · rw [if_neg hcol]
                refine ⟨?_, fun b hb => by cases hb; exact hbfix⟩
                have hsfx : (',' :: ' ' :: part) = [',', ' '] ++ part := rfl
                intro r hr
                rw [hsfx] at hr
                exact trimmedNE_appendToLast [',', ' '] part hptr
                  st.results hres r hr
          · rw [if_neg hfr]
            exact ⟨hres2, fun b hb => by cases hb; exact hbfix⟩

theorem foldl_processPart_inv (raw rt : Chars) :
    ∀ (parts : List Chars) (st : SplitState),
      (∀ p ∈ parts, stripChars p = p) → StInv st →
      StInv (parts.foldl (processPart raw rt) st) := by
  intro parts
  induction parts with
  | nil => intro st _ h; exact h
  | cons p rest ih =>
    intro st hp h
    rw [List.foldl_cons]
    exact ih _ (fun q hq => hp q (List.mem_cons_of_mem _ hq))
      (processPart_inv raw rt p st (hp p (List.mem_cons_self p rest)) h)

theorem processSemiPart_inv (raw rt : Chars) (st : SplitState) (semi : Chars)
    (h : StInv st) : StInv (processSemiPart raw rt st semi) := by
  unfold processSemiPart
  apply foldl_processPart_inv raw rt _ st _ h
  intro p hp
  rcases List.mem_map.mp hp with ⟨q, _, hq⟩
  rw [← hq]
  exact stripChars_idem q

theorem foldl_processSemiPart_inv (raw rt : Chars) :
    ∀ (l : List Chars) (st : SplitState), StInv st →
      StInv (l.foldl (processSemiPart raw rt) st) := by
  intro l
  induction l with
  | nil => intro st h; exact h
  | cons s rest ih =>
    intro st h
    rw [List.foldl_cons]
    exact ih _ (processSemiPart_inv raw rt st s h)

theorem splitLoop_inv (raw rt : Chars) : StInv (splitLoop raw rt) := by
  unfold splitLoop
  exact foldl_processSemiPart_inv raw rt _ _
    ⟨fun r hr => by simp at hr, fun b hb => by simp at hb⟩

end Lectionary

namespace Lectionary

/-! ### Lemmas about the typo corrector -/

theorem isPrefixOf_append_self (l r : Chars) : l.isPrefixOf (l ++ r) = true := by
  rw [List.isPrefixOf_iff_prefix]
  exact List.prefix_append l r

theorem applyCorrection_ne_nil (t : Chars) (rule : Chars × Chars)
    (h : t ≠ []) (h2 : rule.2 ≠ []) : applyCorrection t rule ≠ [] := by
  unfold applyCorrection
  by_cases hp : rule.1.isPrefixOf t
  · rw [if_pos hp]
    simp [h2]
  · rw [if_neg hp]
    exact h

theorem correct_ne_nil (t : Chars) (h : t ≠ []) : correct_source_typosC t ≠ [] := by
  unfold correct_source_typosC SOURCE_CORRECTIONS
  rw [List.foldl_cons, List.foldl_cons, List.foldl_nil]
  apply applyCorrection_ne_nil
  · apply applyCorrection_ne_nil
    · exact h
    · simp
  · simp

theorem applyCorrection_trimmedNE (t : Chars) (rule : Chars × Chars)
    (h1 : ∃ c, rule.1.getLast? = some c ∧ isPySpace c = true)
    (h2 : ∃ c, rule.2.head? = some c ∧ isPySpace c = false)
    (ht : trimmedNE t = true) : trimmedNE (applyCorrection t rule) = true := by
  unfold applyCorrection
  by_cases hp : rule.1.isPrefixOf t
  · rw [if_pos hp]
    obtain ⟨c1, hc1, hc1w⟩ := h1
    obtain ⟨c2, hc2, hc2w⟩ := h2
    have h2ne : rule.2 ≠ [] := by
      intro e
      rw [e] at hc2
      simp at hc2
    obtain ⟨rest, hrest⟩ := (List.isPrefixOf_iff_prefix.mp hp : rule.1 <+: t)
    have hdrop : t.drop rule.1.length = rest := by
      rw [← hrest]
      exact List.drop_left rule.1 rest
    rw [hdrop]
    rcases hr : rest with _ | ⟨x, xs⟩
    · rw [hr] at hrest
      rw [List.append_nil] at hrest
      rw [trimmedNE_iff] at ht
      obtain ⟨_, ⟨b, hb, hbw⟩⟩ := ht
      rw [← hrest, hc1] at hb
      cases hb
      rw [hc1w] at hbw
      cases hbw
    · rw [trimmedNE_iff]
      rw [trimmedNE_iff] at ht
      obtain ⟨_, ⟨b, hb, hbw⟩⟩ := ht
      constructor
      · exact ⟨c2, by rw [List.head?_append_of_ne_nil _ h2ne, hc2], hc2w⟩
      · refine ⟨b, ?_, hbw⟩
        rw [List.getLast?_append_of_ne_nil _ (by simp : x :: xs ≠ [])]
        rw [← hb, ← hrest, hr]
        rw [List.getLast?_append_of_ne_nil _ (by simp : x :: xs ≠ [])]
  · rw [if_neg hp]
    exact ht

theorem correct_trimmedNE (t : Chars) (ht : trimmedNE t = true) :
    trimmedNE (correct_source_typosC t) = true := by
  unfold correct_source_typosC SOURCE_CORRECTIONS
  rw [List.foldl_cons, List.foldl_cons, List.foldl_nil]
  apply applyCorrection_trimmedNE
  · exact ⟨' ', rfl, rfl⟩
  · exact ⟨'L', rfl, rfl⟩
  · apply applyCorrection_trimmedNE
    · exact ⟨' ', rfl, rfl⟩
    · exact ⟨'1', rfl, rfl⟩
    · exact ht

/-! ### Top-level facts about split_references -/

theorem stripChars_isEmpty_false {s : Chars} (h : stripChars s ≠ []) :
    (stripChars s).isEmpty = false := by
  rcases hs : stripChars s with _ | _
  · exact absurd hs h
  · rfl

theorem split_referencesC_of_ne (raw0 rt : Chars) (h : stripChars raw0 ≠ []) :
    split_referencesC raw0 rt =
      (let raw := correct_source_typosC (stripChars raw0)
       let st := splitLoop raw rt
       if st.results.isEmpty then
         ([raw], st.edges ++ [⟨.EMPTY_RESULT, raw, raw, rt⟩])
       else (st.results, st.edges)) := by
  unfold split_referencesC
  rw [if_neg (by rw [stripChars_isEmpty_false h]; simp)]
  simp only []
  by_cases hres : (splitLoop (correct_source_typosC (stripChars raw0)) rt).results.isEmpty
  · rw [if_pos hres, if_pos hres]
    rw [if_neg ?hne]
    case hne =>
      have := correct_ne_nil (stripChars raw0) h
      rcases hc : correct_source_typosC (stripChars raw0) with _ | _
      · exact absurd hc this
      · simp
  · rw [if_neg hres, if_neg hres]

theorem split_referencesC_ne_nil (raw0 rt : Chars) (h : stripChars raw0 ≠ []) :
    (split_referencesC raw0 rt).1 ≠ [] := by
  rw [split_referencesC_of_ne raw0 rt h]
  simp only []
  by_cases hres : (splitLoop (correct_source_typosC (stripChars raw0)) rt).results.isEmpty
  · rw [if_pos hres]
    simp
  · rw [if_neg hres]
    intro e
    rw [List.isEmpty_iff] at hres
    exact hres e

theorem split_referencesC_trimmed (raw0 rt : Chars) :
    ∀ p ∈ (split_referencesC raw0 rt).1, trimmedNE p = true := by
  by_cases h : stripChars raw0 = []
  · intro p hp
    unfold split_referencesC at hp
    rw [if_pos (by rw [h]; rfl)] at hp
    simp at hp
  · rw [split_referencesC_of_ne raw0 rt h]
    simp only []
    have htr : trimmedNE (correct_source_typosC (stripChars raw0)) = true :=
      correct_trimmedNE _ (trimmedNE_stripChars raw0 h)
    by_cases hres : (splitLoop (correct_source_typosC (stripChars raw0)) rt).results.isEmpty
    · rw [if_pos hres]
      intro p hp
      rw [List.mem_singleton.mp hp]
      exact htr
    · rw [if_neg hres]
      intro p hp
      exact (splitLoop_inv (correct_source_typosC (stripChars raw0)) rt).1 p hp

end Lectionary

namespace Lectionary

theorem String_mk_eq_empty_iff (l : Chars) : String.mk l = "" ↔ l = [] := by
  constructor
  · intro h
    have := congrArg String.toList h
    exact this
  · intro h
    rw [h]

theorem isPrefixOf_cons_of_ne {a b : Char} (l1 l2 : Chars) (h : (a == b) = false) :
    (a :: l1).isPrefixOf (b :: l2) = false := by
  simp only [List.isPrefixOf, h, Bool.false_and]

/-! ### Claim theorems -/

/-- C1: while the active book is set, a comma sub-part that does not start
with a book name and matches the verse-locator shape is emitted as a new
reference prefixed by the active book when it contains a colon, and is
otherwise appended with a comma to the most recently emitted reference in
place, adding no new entry; in particular the Job citation splits into two
references and the John citation stays a single reference. -/
theorem C1_comma_subpart_rule (raw rt book part prev : Chars) (rest : List Chars)
    (st : SplitState)
    (hb : st.current_book = some book) (hbne : book ≠ [])
    (hnb : starts_with_book_nameC part = false)
    (hfrag : looksLikeVerseFragment part = true)
    (hne : part ≠ [])
    (hres : st.results = rest ++ [prev]) :
    ((processPart raw rt st part).results =
      (if part.contains ':' then st.results ++ [book ++ ' ' :: part]
       else rest ++ [prev ++ ',' :: ' ' :: part]))
    ∧ split_references "Job 12:1, 13:3-17, 21-27" "first"
        = ["Job 12:1", "Job 13:3-17, 21-27"]
    ∧ split_references "John 9:1-12, 35-38" "gospel" = ["John 9:1-12, 35-38"] := by
  refine ⟨?_, by decide, by decide⟩
  have hemp : part.isEmpty = false := by
    rcases part with _ | _
    · exact absurd rfl hne
    · rfl
  have hbemp : book.isEmpty = false := by
    rcases book with _ | _
    · exact absurd rfl hbne
    · rfl
  have hresemp : st.results.isEmpty = false := by
    rw [hres]
    simp
  unfold processPart
  rw [hemp, hnb, hb]
  simp only [Bool.false_eq_true, if_false]
  rw [hbemp, hfrag]
  simp only [Bool.false_eq_true, if_false, if_true]
  rw [hresemp]
  simp only [Bool.false_eq_true, if_false]
  by_cases hcol : part.contains ':' = true
  · rw [if_pos hcol, if_pos hcol]
  · rw [if_neg hcol, if_neg hcol]
    rw [hres, appendToLast_append_singleton]

theorem C1_comma_subpart_rule_witness :
    ((processPart [] [] ⟨["Job 12:1".toList], some "Job".toList, []⟩
        "13:3-17".toList).results =
      (if ("13:3-17".toList).contains ':' then
        ["Job 12:1".toList] ++ ["Job".toList ++ ' ' :: "13:3-17".toList]
       else [] ++ ["Job 12:1".toList ++ ',' :: ' ' :: "13:3-17".toList]))
    ∧ split_references "Job 12:1, 13:3-17, 21-27" "first"
        = ["Job 12:1", "Job 13:3-17, 21-27"]
    ∧ split_references "John 9:1-12, 35-38" "gospel" = ["John 9:1-12, 35-38"] :=
  C1_comma_subpart_rule [] [] "Job".toList "13:3-17".toList "Job 12:1".toList []
    ⟨["Job 12:1".toList], some "Job".toList, []⟩ rfl (by decide) (by decide)
    (by decide) (by decide) rfl

/-- C2: failing input for the claim that semicolons always delimit distinct
references.  The semicolon example with a colon in the second segment does
split into two book-qualified references, but a bare-number semicolon
segment is appended to the previous reference in place, so one semicolon
with two nonempty segments can produce a single reference, contradicting
the claim and the docstring rule that semicolons always split. -/
theorem C2_semicolon_merge_bug :
    split_references "Isaiah 45:14-19; 61:1-9" "first"
        = ["Isaiah 45:14-19", "Isaiah 61:1-9"]
    ∧ split_references "Isaiah 45:14-19; 61" "first" = ["Isaiah 45:14-19, 61"]
    ∧ (split_references "Isaiah 45:14-19; 61" "first").length = 1
    ∧ ((((pySplit ';' "Isaiah 45:14-19; 61".toList).map stripChars).filter
        fun p => !p.isEmpty)).length = 2 :=
  ⟨by decide, by decide, by decide, by decide⟩

/-- C3 counterexample: a sub-part accepted by the book-start test need not
leave the active book set.  The book-start pattern accepts a book name
followed by an opening paren, but the extraction pattern requires a digit
after the book, so extract_book_name returns none on the paren input and a
following colon segment is then emitted without the book. -/
theorem C3_paren_book_counterexample :
    starts_with_book_name "John (9:1)" = true
    ∧ extract_book_name "John (9:1)" = none
    ∧ split_references "John (9:1); 3:16" "gospel" = ["John (9:1)", "3:16"] :=
  ⟨by decide, by decide, by decide⟩

/-- C3 amended: for every comma sub-part that matches a book start, split
emits the sub-part verbatim as a new reference and sets the active book to
the result of extract_book_name, which may be none (leaving the active book
unset) when the book name is followed by an opening paren rather than a
digit, since the extraction pattern requires a digit after the book. -/
theorem C3_book_start_amended (raw rt part : Chars) (st : SplitState)
    (hne : part ≠ []) (hbs : starts_with_book_nameC part = true) :
    (processPart raw rt st part).results = st.results ++ [part]
    ∧ (processPart raw rt st part).current_book = extract_book_nameC part
    ∧ (processPart raw rt st part).edges = st.edges := by
  have hemp : part.isEmpty = false := by
    rcases part with _ | _
    · exact absurd rfl hne
    · rfl
  unfold processPart
  rw [hemp, hbs]
  refine ⟨?_, ?_, ?_⟩ <;> simp

theorem C3_book_start_amended_witness :
    (processPart [] [] ⟨[], none, []⟩ "Isaiah 45:14-19".toList).results
        = [] ++ ["Isaiah 45:14-19".toList]
    ∧ (processPart [] [] ⟨[], none, []⟩ "Isaiah 45:14-19".toList).current_book
        = extract_book_nameC "Isaiah 45:14-19".toList
    ∧ (processPart [] [] ⟨[], none, []⟩ "Isaiah 45:14-19".toList).edges = [] :=
  C3_book_start_amended [] [] "Isaiah 45:14-19".toList ⟨[], none, []⟩
    (by decide) (by decide)

/-- C4: for every raw citation that is nonempty after trimming, split
returns a nonempty sequence, and when the main loops produce zero
references the function records an EMPTY_RESULT edge case and returns the
post-correction string as a single reference. -/
theorem C4_nonempty_output (raw rt : String) (h : pyStrip raw ≠ "") :
    split_references raw rt ≠ []
    ∧ ((splitLoop (correct_source_typosC (stripChars raw.toList)) rt.toList).results
          = [] →
        split_referencesC raw.toList rt.toList =
          ([correct_source_typosC (stripChars raw.toList)],
           (splitLoop (correct_source_typosC (stripChars raw.toList))
               rt.toList).edges
             ++ [⟨EdgeCategory.EMPTY_RESULT,
                  correct_source_typosC (stripChars raw.toList),
                  correct_source_typosC (stripChars raw.toList), rt.toList⟩])) := by
  have hne : stripChars raw.toList ≠ [] := by
    intro e
    apply h
    unfold pyStrip
    rw [e]
  constructor
  · unfold split_references
    intro hmap
    exact split_referencesC_ne_nil raw.toList rt.toList hne
      (List.map_eq_nil_iff.mp hmap)
  · intro hres
    rw [split_referencesC_of_ne raw.toList rt.toList hne]
    simp only [hres, List.isEmpty_nil, if_true]

theorem C4_nonempty_output_witness :
    pyStrip "foo" ≠ "" ∧ split_references "foo" "first" ≠ [] :=
  ⟨by decide, (C4_nonempty_output "foo" "first" (by decide)).1⟩

/-- C5: split is total by construction in this embedding, and it returns
the empty list exactly on input that is empty or whitespace-only after
trimming; on every other input the result is nonempty, so every degenerate
case degrades to an emission rather than a failure. -/
theorem C5_total_empty_iff (raw rt : String) :
    split_references raw rt = [] ↔ pyStrip raw = "" := by
  unfold pyStrip
  rw [String_mk_eq_empty_iff]
  constructor
  · intro h
    by_contra hne
    apply split_referencesC_ne_nil raw.toList rt.toList hne
    unfold split_references at h
    exact List.map_eq_nil_iff.mp h
  · intro h
    unfold split_references split_referencesC
    rw [if_pos (by rw [h]; rfl)]
    rfl

theorem C5_total_empty_iff_witness :
    split_references "   " "first" = [] ↔ pyStrip "   " = "" :=
  C5_total_empty_iff "   " "first"

/-- C6: every edge-case record emitted by split carries one of exactly the
three categories AMBIGUOUS_COMMA_SPLIT, NO_BOOK_CONTEXT and EMPTY_RESULT,
and a comma sub-part that fails the verse-locator-shape test while the
active book is set is emitted as the active book followed by the sub-part
and records an AMBIGUOUS_COMMA_SPLIT edge case. -/
theorem C6_edge_case_categories :
    (∀ raw rt : String, ∀ e ∈ split_references_edges raw rt,
      e.category = EdgeCategory.AMBIGUOUS_COMMA_SPLIT
      ∨ e.category = EdgeCategory.NO_BOOK_CONTEXT
      ∨ e.category = EdgeCategory.EMPTY_RESULT)
    ∧ ∀ (raw rt part book : Chars) (st : SplitState),
        part ≠ [] → starts_with_book_nameC part = false →
        st.current_book = some book → book ≠ [] →
        looksLikeVerseFragment part = false →
        (processPart raw rt st part).results
            = st.results ++ [book ++ ' ' :: part]
        ∧ (processPart raw rt st part).edges
            = st.edges ++ [⟨EdgeCategory.AMBIGUOUS_COMMA_SPLIT, raw, part, rt⟩] := by
  constructor
  · intro raw rt e _
    rcases e with ⟨cat, r, f, t⟩
    cases cat
    · exact Or.inl rfl
    · exact Or.inr (Or.inl rfl)
    · exact Or.inr (Or.inr rfl)
  · intro raw rt part book st hne hnb hb hbne hfrag
    have hemp : part.isEmpty = false := by
      rcases part with _ | _
      · exact absurd rfl hne
      · rfl
    have hbemp : book.isEmpty = false := by
      rcases book with _ | _
      · exact absurd rfl hbne
      · rfl
    unfold processPart
    rw [hemp, hnb, hb]
    simp only [Bool.false_eq_true, if_false]
    rw [hbemp, hfrag]
    simp only [Bool.false_eq_true, if_false]
    exact ⟨trivial, trivial⟩

theorem C6_edge_case_categories_witness :
    ((⟨EdgeCategory.NO_BOOK_CONTEXT, "foo".toList, "foo".toList,
        "first".toList⟩ : EdgeCase).category = EdgeCategory.AMBIGUOUS_COMMA_SPLIT
      ∨ (⟨EdgeCategory.NO_BOOK_CONTEXT, "foo".toList, "foo".toList,
          "first".toList⟩ : EdgeCase).category = EdgeCategory.NO_BOOK_CONTEXT
      ∨ (⟨EdgeCategory.NO_BOOK_CONTEXT, "foo".toList, "foo".toList,
          "first".toList⟩ : EdgeCase).category = EdgeCategory.EMPTY_RESULT)
    ∧ ((processPart [] [] ⟨["John 9:1".toList], some "John".toList, []⟩
          "happy".toList).results
        = ["John 9:1".toList] ++ ["John".toList ++ ' ' :: "happy".toList]
      ∧ (processPart [] [] ⟨["John 9:1".toList], some "John".toList, []⟩
          "happy".toList).edges
        = [] ++ [⟨EdgeCategory.AMBIGUOUS_COMMA_SPLIT, [], "happy".toList, []⟩]) :=
  ⟨C6_edge_case_categories.1 "foo" "first" _ (by decide),
   C6_edge_case_categories.2 [] [] "happy".toList "John".toList
     ⟨["John 9:1".toList], some "John".toList, []⟩ (by decide) (by decide) rfl
     (by decide) (by decide)⟩

/-- C7 counterexample: an input with no digits and no recognized book name
but containing a semicolon is split into two verbatim fragments with two
NO_BOOK_CONTEXT records, not returned as a single reference with exactly
one record. -/
theorem C7_separator_counterexample :
    ("foo; bar".toList.all fun c => !c.isDigit) = true
    ∧ starts_with_book_name "foo; bar" = false
    ∧ starts_with_book_name "foo" = false
    ∧ starts_with_book_name "bar" = false
    ∧ split_references "foo; bar" "first" = ["foo", "bar"]
    ∧ (split_references_edges "foo; bar" "first").length = 2 :=
  ⟨by decide, by decide, by decide, by decide, by decide, by decide⟩

/-- C7 amended: for every nonempty input with no digits whose corrected,
trimmed form has no semicolon, no comma and no recognized book start, split
returns that corrected trimmed form as a single reference and records
exactly one NO_BOOK_CONTEXT edge case; inputs containing separators are
instead split into one emission and one record per fragment. -/
theorem C7_unparseable_amended (r rt : Chars)
    (h0 : stripChars r ≠ [])
    (hnd : ∀ c ∈ r, c.isDigit = false)
    (hsemi : ';' ∉ correct_source_typosC (stripChars r))
    (hcomma : ',' ∉ correct_source_typosC (stripChars r))
    (hbook : starts_with_book_nameC (correct_source_typosC (stripChars r))
        = false) :
    split_referencesC r rt =
      ([correct_source_typosC (stripChars r)],
       [⟨EdgeCategory.NO_BOOK_CONTEXT, correct_source_typosC (stripChars r),
         correct_source_typosC (stripChars r), rt⟩]) := by
  have hctr : trimmedNE (correct_source_typosC (stripChars r)) = true :=
    correct_trimmedNE _ (trimmedNE_stripChars r h0)
  have hcfix : stripChars (correct_source_typosC (stripChars r))
      = correct_source_typosC (stripChars r) := stripChars_of_trimmedNE hctr
  have hcne : correct_source_typosC (stripChars r) ≠ [] := trimmedNE_ne_nil hctr
  have hcemp : (correct_source_typosC (stripChars r)).isEmpty = false := by
    rcases hc : correct_source_typosC (stripChars r) with _ | _
    · exact absurd hc hcne
    · rfl
  have hstep : processPart (correct_source_typosC (stripChars r)) rt
      ⟨[], none, []⟩ (correct_source_typosC (stripChars r)) =
      ⟨[correct_source_typosC (stripChars r)], none,
        [⟨EdgeCategory.NO_BOOK_CONTEXT, correct_source_typosC (stripChars r),
          correct_source_typosC (stripChars r), rt⟩]⟩ := by
    unfold processPart
    rw [hcemp, hbook]
    simp
  have hloop : splitLoop (correct_source_typosC (stripChars r)) rt =
      ⟨[correct_source_typosC (stripChars r)], none,
        [⟨EdgeCategory.NO_BOOK_CONTEXT, correct_source_typosC (stripChars r),
          correct_source_typosC (stripChars r), rt⟩]⟩ := by
    unfold splitLoop
    rw [pySplit_eq_single hsemi]
    rw [List.map_cons, List.map_nil, hcfix]
    rw [List.filter_cons]
    simp only [hcemp, Bool.not_false, if_true, List.filter_nil]
    rw [List.foldl_cons, List.foldl_nil]
    unfold processSemiPart
    rw [pySplit_eq_single hcomma]
    rw [List.map_cons, List.map_nil, hcfix]
    rw [List.foldl_cons, List.foldl_nil]
    exact hstep
  rw [split_referencesC_of_ne r rt h0]
  simp only [hloop]
  simp

theorem C7_unparseable_amended_witness :
    split_referencesC "nothing here".toList "first".toList =
      ([correct_source_typosC (stripChars "nothing here".toList)],
       [⟨EdgeCategory.NO_BOOK_CONTEXT,
         correct_source_typosC (stripChars "nothing here".toList),
         correct_source_typosC (stripChars "nothing here".toList),
         "first".toList⟩]) :=
  C7_unparseable_amended "nothing here".toList "first".toList (by decide)
    (by decide) (by decide) (by decide) (by decide)

/-- C8: the typo corrector applies its ordered exact rewrites once to the
whole raw string before splitting: any string starting with the six
characters of the Kings rule gains the missing number, any string starting
with the twelve characters of the Lamentation rule gains the missing final
letter, and the two example citations split accordingly. -/
theorem C8_typo_corrections :
    (∀ r : Chars, correct_source_typosC (['K', 'i', 'n', 'g', 's', ' '] ++ r)
        = ['1', ' ', 'K', 'i', 'n', 'g', 's', ' '] ++ r)
    ∧ (∀ r : Chars, correct_source_typosC
        (['L', 'a', 'm', 'e', 'n', 't', 'a', 't', 'i', 'o', 'n', ' '] ++ r)
        = ['L', 'a', 'm', 'e', 'n', 't', 'a', 't', 'i', 'o', 'n', 's', ' '] ++ r)
    ∧ split_references "Kings 3:5-14" "first" = ["1 Kings 3:5-14"]
    ∧ split_references "Lamentation 1:1-2, 6-12" "first"
        = ["Lamentations 1:1-2, 6-12"] := by
  refine ⟨?_, ?_, by decide, by decide⟩
  · intro r
    unfold correct_source_typosC SOURCE_CORRECTIONS
    rw [List.foldl_cons, List.foldl_cons, List.foldl_nil]
    have h1 : applyCorrection (['K', 'i', 'n', 'g', 's', ' '] ++ r)
        (['K', 'i', 'n', 'g', 's', ' '], ['1', ' ', 'K', 'i', 'n', 'g', 's', ' '])
        = ['1', ' ', 'K', 'i', 'n', 'g', 's', ' '] ++ r := by
      unfold applyCorrection
      rw [if_pos (by exact isPrefixOf_append_self _ r)]
      rw [List.drop_left' (by rfl)]
    rw [h1]
    unfold applyCorrection
    rw [if_neg ?hne]
    case hne =>
      rw [List.cons_append]
      rw [isPrefixOf_cons_of_ne _ _ (by decide)]
      simp
  · intro r
    unfold correct_source_typosC SOURCE_CORRECTIONS
    rw [List.foldl_cons, List.foldl_cons, List.foldl_nil]
    have h1 : applyCorrection
        (['L', 'a', 'm', 'e', 'n', 't', 'a', 't', 'i', 'o', 'n', ' '] ++ r)
        (['K', 'i', 'n', 'g', 's', ' '], ['1', ' ', 'K', 'i', 'n', 'g', 's', ' '])
        = ['L', 'a', 'm', 'e', 'n', 't', 'a', 't', 'i', 'o', 'n', ' '] ++ r := by
      unfold applyCorrection
      rw [if_neg ?hne2]
      case hne2 =>
        rw [List.cons_append]
        rw [isPrefixOf_cons_of_ne _ _ (by decide)]
        simp
    rw [h1]
    unfold applyCorrection
    rw [if_pos (by exact isPrefixOf_append_self _ r)]
    rw [List.drop_left' (by rfl)]

theorem C8_typo_corrections_witness :
    correct_source_typosC (['K', 'i', 'n', 'g', 's', ' '] ++ "3:5".toList)
        = ['1', ' ', 'K', 'i', 'n', 'g', 's', ' '] ++ "3:5".toList
    ∧ split_references "Kings 3:5-14" "first" = ["1 Kings 3:5-14"] :=
  ⟨C8_typo_corrections.1 "3:5".toList, C8_typo_corrections.2.2.1⟩

/-- C9: the psalm splitter strips a leading case-insensitive Psalm or
Psalms token, splits the remainder on semicolons only, and returns each
trimmed nonempty segment verbatim; commas are not split on and no book is
carried, and every returned segment is nonempty, trimmed and free of
semicolons. -/
theorem C9_psalm_splitting :
    split_psalm_references "Psalm 122; 145" = ["122", "145"]
    ∧ split_psalm_references "Psalm 89:1-18; 147:1-11" = ["89:1-18", "147:1-11"]
    ∧ split_psalm_references "psalms 5; 6" = ["5", "6"]
    ∧ split_psalm_references "Psalm 1, 2; 3" = ["1, 2", "3"]
    ∧ ∀ raw : Chars, ∀ p ∈ split_psalm_referencesC raw,
        p ≠ [] ∧ stripChars p = p ∧ ';' ∉ p := by
  refine ⟨by decide, by decide, by decide, by decide, ?_⟩
  intro raw p hp
  unfold split_psalm_referencesC at hp
  by_cases h : (stripChars raw).isEmpty
  · rw [if_pos h] at hp
    simp at hp
  · rw [if_neg h] at hp
    obtain ⟨hpm, hpe⟩ := List.mem_filter.mp hp
    obtain ⟨q, hq, hqe⟩ := List.mem_map.mp hpm
    have hpne : p ≠ [] := by
      intro e
      rw [e] at hpe
      simp at hpe
    refine ⟨hpne, ?_, ?_⟩
    · rw [← hqe]
      exact stripChars_idem q
    · intro hmem
      rw [← hqe] at hmem
      exact sep_not_mem_pySplit hq (mem_of_mem_stripChars hmem)

theorem C9_psalm_splitting_witness :
    "122".toList ∈ split_psalm_referencesC "Psalm 122; 145".toList
    ∧ ("122".toList ≠ [] ∧ stripChars "122".toList = "122".toList
        ∧ ';' ∉ "122".toList) :=
  ⟨by decide, C9_psalm_splitting.2.2.2.2 "Psalm 122; 145".toList "122".toList
    (by decide)⟩

/-- C10: every string returned by split, for every input and reading type,
is nonempty and equals its own trim, across all four emission forms of the
algorithm. -/
theorem C10_outputs_trimmed (raw rt : String) :
    ∀ p ∈ split_references raw rt, p ≠ "" ∧ pyStrip p = p := by
  intro p hp
  unfold split_references at hp
  obtain ⟨q, hq, hqe⟩ := List.mem_map.mp hp
  have htr := split_referencesC_trimmed raw.toList rt.toList q hq
  constructor
  · rw [← hqe, Ne, String_mk_eq_empty_iff]
    exact trimmedNE_ne_nil htr
  · rw [← hqe]
    unfold pyStrip
    have h2 : (String.mk q).toList = q := rfl
    rw [h2, stripChars_of_trimmedNE htr]

theorem C10_outputs_trimmed_witness :
    "John 9:1-12, 35-38" ∈ split_references "John 9:1-12, 35-38" "gospel"
    ∧ ("John 9:1-12, 35-38" ≠ ""
        ∧ pyStrip "John 9:1-12, 35-38" = "John 9:1-12, 35-38") :=
  ⟨by decide, C10_outputs_trimmed "John 9:1-12, 35-38" "gospel" _ (by decide)⟩

end Lectionary
